import Mathlib

/-!
Shallow embedding of the LinkCullen core (`src/services/linkService.ts`) and
proofs of the specification's claims about it.

Modelling conventions:
* Timestamps are integers (milliseconds since the Unix epoch); JavaScript's
  `date.setDate(date.getDate() + k)` is modelled as adding `k * 86400000`
  milliseconds (calendar-day arithmetic without DST shifts).
* The Prisma store is a `List TrackedLink`; record ids are `Nat`, generated
  from a `nextId` counter threaded through the operations (Prisma generates
  opaque unique ids).  The `@unique` constraint on `linkUrl` is modelled by
  making `create` fail when the url is already present, as Prisma does.
* Asynchronous methods that can `throw` are modelled with `Except String`.
* `_calculateSHA256` is an opaque-to-the-logic string function; the service
  definitions take it as the parameter `sha256`.
* The audit logger and the Microsoft Graph fetch are external collaborators;
  the remote link set returned by `fetchGraphLinks` is an input
  (`List RemoteLink`, the normalized shape built at the end of that method).
-/

namespace LinkCullen

/-- Milliseconds since the Unix epoch. -/
abbrev Timestamp := Int

/-- Milliseconds in one day. -/
def msPerDay : Int := 86400000

/-- `t` moved forward by `days` calendar days (models `setDate(getDate()+days)`). -/
def addDays (days : Int) (t : Timestamp) : Timestamp :=
  t + days * msPerDay

/-- `enum Role` from the Prisma schema. -/
inductive Role where
  | USER
  | ADMIN
deriving DecidableEq, Repr

/-- `enum ShareType` from the Prisma schema. -/
inductive ShareType where
  | SPECIFIC_PEOPLE
  | ANYONE
deriving DecidableEq, Repr

/-- `enum Permission` from the Prisma schema. -/
inductive Permission where
  | VIEW
  | EDIT
  | BLOCK_DOWNLOAD
deriving DecidableEq, Repr

/-- `model ShareRecipient` (the per-link fields; id/linkId are the parent link). -/
structure ShareRecipient where
  recipient : String
  permission : Permission
deriving DecidableEq, Repr

/-- `model TrackedLink` from the Prisma schema, with its recipients inlined. -/
structure TrackedLink where
  id : Nat
  fileId : String
  fileName : String
  filePath : String
  shareType : ShareType
  linkUrl : String
  ownerId : String
  createdAt : Timestamp
  expiresAt : Option Timestamp
  recipients : List ShareRecipient
deriving DecidableEq, Repr

/-- `model Policy` (the fields read by the service). -/
structure Policy where
  maxDurationInternal : Int
  maxDurationExternal : Int
  allowPublicSharing : Bool
deriving DecidableEq, Repr

/-- `model User` (the fields read by the service). -/
structure User where
  id : String
  email : String
  role : Role
deriving DecidableEq, Repr

/-- `interface CreateLinkParams`. -/
structure CreateLinkParams where
  fileName : String
  filePath : String
  shareType : ShareType
  recipients : List ShareRecipient
  linkUrl : String
  expiresAt : Option Timestamp
  ownerId : String
deriving DecidableEq, Repr

/-- `interface UpdateLinkParams`.  `expiresAt?: Date | null` distinguishes
absent (`none`), explicit null (`some none`) and a date (`some (some d)`). -/
structure UpdateLinkParams where
  shareType : Option ShareType
  recipients : Option (List ShareRecipient)
  expiresAt : Option (Option Timestamp)
deriving DecidableEq, Repr

/-- `interface LinkQueryOptions` (`ownerId` is declared but unused by `getLinks`). -/
structure LinkQueryOptions where
  page : Option Nat
  limit : Option Nat
  ownerId : Option String
deriving DecidableEq, Repr

/-- The normalized remote record shape produced by `fetchGraphLinks`. -/
structure RemoteLink where
  fileId : String
  fileName : String
  filePath : String
  linkUrl : String
  expiresAt : Option Timestamp
  ownerId : String
  shareType : ShareType
  recipients : List ShareRecipient
deriving DecidableEq, Repr

/-- The policy block of `createLink` (linkService.ts lines 69–92), the
Policy Evaluator: computes the effective expiration or rejects.  `policy` is
the result of `prisma.policy.findFirst()`; the `??` fallbacks are `30`
(external) and `365` (internal) and a missing policy makes
`policy?.allowPublicSharing` falsy. -/
def evaluateExpiration (policy : Option Policy) (shareType : ShareType)
    (requestedExpiresAt : Option Timestamp) (now : Timestamp) :
    Except String Timestamp :=
  if shareType = ShareType.ANYONE then
    if (policy.map Policy.allowPublicSharing).getD false = false then
      Except.error "Public sharing not allowed"
    else
      let maxDays := (policy.map Policy.maxDurationExternal).getD 30
      let maxDate := addDays maxDays now
      match requestedExpiresAt with
      | some e =>
        if maxDate < e then Except.error "Expiration date exceeds allowed external limit"
        else Except.ok e
      | none => Except.ok maxDate
  else
    let maxDays := (policy.map Policy.maxDurationInternal).getD 365
    let maxDate := addDays maxDays now
    match requestedExpiresAt with
    | some e =>
      if maxDate < e then Except.error "Expiration date exceeds allowed internal limit"
      else Except.ok e
    | none => Except.ok maxDate

/-- `createLink` (linkService.ts lines 68–129): policy enforcement on
expiration and public sharing, then insertion of the new record.
`prisma.trackedLink.create` fails on the `linkUrl @unique` constraint. -/
def createLink (sha256 : String → String) (policy : Option Policy) (now : Timestamp)
    (params : CreateLinkParams) (db : List TrackedLink) (nextId : Nat) :
    Except String (TrackedLink × List TrackedLink × Nat) :=
  match evaluateExpiration policy params.shareType params.expiresAt now with
  | Except.error e => Except.error e
  | Except.ok expires =>
  if db.any (fun l => decide (l.linkUrl = params.linkUrl)) then
    Except.error "Unique constraint failed on linkUrl"
  else
    let link : TrackedLink :=
      { id := nextId
        fileId := sha256 params.filePath
        fileName := params.fileName
        filePath := params.filePath
        shareType := params.shareType
        linkUrl := params.linkUrl
        ownerId := params.ownerId
        createdAt := now
        expiresAt := some expires
        recipients := params.recipients }
    Except.ok (link, db ++ [link], nextId + 1)

/-- `getLinkById` (lines 134–160): lookup by id, then the RBAC rule —
a record the caller may not see is reported as absent. -/
def getLinkById (db : List TrackedLink) (id : Nat) (user : User) : Option TrackedLink :=
  match db.find? (fun l => decide (l.id = id)) with
  | none => none
  | some link =>
    if user.role ≠ Role.ADMIN ∧ link.ownerId ≠ user.id then none
    else some link

/-- `getLinks` (lines 165–197): role-scoped filter, newest-first ordering,
offset pagination; returns the page and the total count of the filtered set. -/
def getLinks (user : User) (options : LinkQueryOptions) (db : List TrackedLink) :
    List TrackedLink × Nat :=
  let page := options.page.getD 1
  let limit := options.limit.getD 10
  let skip := (page - 1) * limit
  let filtered :=
    if user.role = Role.ADMIN then db
    else db.filter (fun l => decide (l.ownerId = user.id))
  let sorted := filtered.mergeSort (fun a b => decide (b.createdAt ≤ a.createdAt))
  ((sorted.drop skip).take limit, filtered.length)

/-- The policy block at the top of `updateLink` (lines 204–217).  Note that
the applicable maximum is selected by `params.shareType` (the update request),
not by the stored link's share type, and that a null/absent `expiresAt`
is falsy in `if (params.expiresAt)` and skips the duration check. -/
def updatePolicyCheck (policy : Option Policy) (now : Timestamp)
    (params : UpdateLinkParams) : Except String Unit :=
  if params.shareType = some ShareType.ANYONE ∧
      (policy.map Policy.allowPublicSharing).getD false = false then
    Except.error "Public sharing not allowed"
  else
    match params.expiresAt with
    | some (some e) =>
      let maxDays :=
        if params.shareType = some ShareType.ANYONE then
          (policy.map Policy.maxDurationExternal).getD 30
        else
          (policy.map Policy.maxDurationInternal).getD 365
      if addDays maxDays now < e then
        Except.error "Expiration date exceeds allowed limit"
      else Except.ok ()
    | _ => Except.ok ()

/-- The conditional update data of `updateLink` (lines 226–231): fields are
written only when supplied; a supplied `recipients` wholesale-replaces the set. -/
def applyUpdate (l : TrackedLink) (params : UpdateLinkParams) : TrackedLink :=
  { l with
    shareType := params.shareType.getD l.shareType
    expiresAt := match params.expiresAt with | some v => v | none => l.expiresAt
    recipients := params.recipients.getD l.recipients }

/-- `updateLink` (lines 202–245): policy pre-check, then the RBAC lookup via
`getLinkById`, then the conditional field update. -/
def updateLink (policy : Option Policy) (now : Timestamp) (db : List TrackedLink)
    (id : Nat) (params : UpdateLinkParams) (user : User) :
    Except String (Option TrackedLink × List TrackedLink) :=
  match updatePolicyCheck policy now params with
  | Except.error e => Except.error e
  | Except.ok _ =>
    match getLinkById db id user with
    | none => Except.ok (none, db)
    | some existingLink =>
      Except.ok (some (applyUpdate existingLink params),
        db.map (fun l => if l.id = id then applyUpdate l params else l))

/-- `deleteLink` (lines 250–275): RBAC lookup via `getLinkById`, then deletion. -/
def deleteLink (db : List TrackedLink) (id : Nat) (user : User) :
    Bool × List TrackedLink :=
  match getLinkById db id user with
  | none => (false, db)
  | some _ => (true, db.filter (fun l => decide (l.id ≠ id)))

/-- The `where` predicate of `findExpiringLinks`:
`expiresAt: { not: null, gt: now, lte: thresholdDate }`. -/
def expiringPred (now thresholdDate : Timestamp) (l : TrackedLink) : Bool :=
  match l.expiresAt with
  | none => false
  | some e => decide (now < e ∧ e ≤ thresholdDate)

/-- `findExpiringLinks` (lines 280–306): links with a future expiration
inside the threshold window. -/
def findExpiringLinks (db : List TrackedLink) (now : Timestamp)
    (daysThreshold : Int) : List TrackedLink :=
  let thresholdDate := addDays daysThreshold now
  db.filter (expiringPred now thresholdDate)

/-- The update `data` object built inside `synchronizeLinks` (lines 328–337),
applied to an existing record: every remote-sourced field is overwritten,
recipients wholesale-replaced; `id` and `createdAt` are untouched. -/
def applyRemote (l : TrackedLink) (rl : RemoteLink) : TrackedLink :=
  { l with
    fileId := rl.fileId
    fileName := rl.fileName
    filePath := rl.filePath
    shareType := rl.shareType
    linkUrl := rl.linkUrl
    expiresAt := rl.expiresAt
    ownerId := rl.ownerId
    recipients := rl.recipients }

/-- The record created by `prisma.trackedLink.create({ data })` inside
`synchronizeLinks` for a remote item with no local match. -/
def mkRemote (id : Nat) (now : Timestamp) (rl : RemoteLink) : TrackedLink :=
  { id := id
    fileId := rl.fileId
    fileName := rl.fileName
    filePath := rl.filePath
    shareType := rl.shareType
    linkUrl := rl.linkUrl
    ownerId := rl.ownerId
    createdAt := now
    expiresAt := rl.expiresAt
    recipients := rl.recipients }

/-- One iteration of the upsert loop of `synchronizeLinks` (lines 326–347):
`localLinks.find(ll => ll.linkUrl === rl.linkUrl)` against the pre-loop
snapshot, then update-by-id or create (create fails on the unique `linkUrl`). -/
def syncUpsert (snapshot : List TrackedLink) (now : Timestamp) (rl : RemoteLink)
    (db : List TrackedLink) (nextId : Nat) : Except String (List TrackedLink × Nat) :=
  match snapshot.find? (fun ll => decide (ll.linkUrl = rl.linkUrl)) with
  | some existingLink =>
    Except.ok (db.map (fun l => if l.id = existingLink.id then applyRemote l rl else l),
      nextId)
  | none =>
    if db.any (fun l => decide (l.linkUrl = rl.linkUrl)) then
      Except.error "Unique constraint failed on linkUrl"
    else
      Except.ok (db ++ [mkRemote nextId now rl], nextId + 1)

/-- The `for (const rl of remoteLinks)` upsert loop of `synchronizeLinks`. -/
def syncUpsertLoop (snapshot : List TrackedLink) (now : Timestamp) :
    List RemoteLink → List TrackedLink → Nat → Except String (List TrackedLink × Nat)
  | [], db, nextId => Except.ok (db, nextId)
  | rl :: rest, db, nextId =>
    match syncUpsert snapshot now rl db nextId with
    | Except.error e => Except.error e
    | Except.ok (db', nextId') => syncUpsertLoop snapshot now rest db' nextId'

/-- The `for (const ll of localLinks)` delete loop of `synchronizeLinks`
(lines 350–354): delete every snapshot record whose url is not remote. -/
def syncDeleteLoop (remoteUrls : List String) :
    List TrackedLink → List TrackedLink → List TrackedLink
  | [], db => db
  | ll :: rest, db =>
    if decide (ll.linkUrl ∈ remoteUrls) then syncDeleteLoop remoteUrls rest db
    else syncDeleteLoop remoteUrls rest (db.filter (fun l => decide (l.id ≠ ll.id)))

/-- `synchronizeLinks` (lines 314–361): fetch remote (an input here), snapshot
the local set, upsert every remote item, then delete unmatched local records. -/
def synchronizeLinks (db : List TrackedLink) (remotes : List RemoteLink)
    (now : Timestamp) (nextId : Nat) : Except String (List TrackedLink × Nat) :=
  match syncUpsertLoop db now remotes db nextId with
  | Except.error e => Except.error e
  | Except.ok (db1, nextId1) =>
    Except.ok (syncDeleteLoop (remotes.map RemoteLink.linkUrl) db db1, nextId1)

/-! ## Basic facts about the embedded operations -/

theorem applyRemote_id (l : TrackedLink) (rl : RemoteLink) :
    (applyRemote l rl).id = l.id := rfl

theorem applyRemote_linkUrl (l : TrackedLink) (rl : RemoteLink) :
    (applyRemote l rl).linkUrl = rl.linkUrl := rfl

theorem applyRemote_applyRemote (l : TrackedLink) (rl : RemoteLink) :
    applyRemote (applyRemote l rl) rl = applyRemote l rl := rfl

theorem applyRemote_mkRemote (id : Nat) (now : Timestamp) (rl : RemoteLink) :
    applyRemote (mkRemote id now rl) rl = mkRemote id now rl := rfl

theorem mkRemote_id (id : Nat) (now : Timestamp) (rl : RemoteLink) :
    (mkRemote id now rl).id = id := rfl

theorem mkRemote_linkUrl (id : Nat) (now : Timestamp) (rl : RemoteLink) :
    (mkRemote id now rl).linkUrl = rl.linkUrl := rfl

/-- Invariant carried through the upsert loop of `synchronizeLinks`.
`snapshot` is the pre-loop local set, `urls` the remote url set. -/
structure SyncInv (snapshot : List TrackedLink) (urls : List String)
    (db : List TrackedLink) (nextId : Nat) : Prop where
  idNodup : (db.map TrackedLink.id).Nodup
  urlNodup : (db.map TrackedLink.linkUrl).Nodup
  idLt : ∀ l ∈ db, l.id < nextId
  agree : ∀ l ∈ db, ∀ s ∈ snapshot, s.id = l.id → s.linkUrl = l.linkUrl
  present : ∀ s ∈ snapshot, ∃ l ∈ db, l.id = s.id
  origin : ∀ l ∈ db,
    (∃ s ∈ snapshot, s.id = l.id ∧ s.linkUrl = l.linkUrl) ∨ l.linkUrl ∈ urls

/-- A successful `syncUpsert` is either an in-place update keyed by the
snapshot match, or an append of a fresh record when no url in `db` matches. -/
theorem syncUpsert_cases {snapshot : List TrackedLink} {now : Timestamp}
    {rl : RemoteLink} {db db' : List TrackedLink} {n n' : Nat}
    (hok : syncUpsert snapshot now rl db n = Except.ok (db', n')) :
    (∃ ex ∈ snapshot, ex.linkUrl = rl.linkUrl ∧
      snapshot.find? (fun ll => decide (ll.linkUrl = rl.linkUrl)) = some ex ∧
      db' = db.map (fun l => if l.id = ex.id then applyRemote l rl else l) ∧ n' = n) ∨
    ((∀ l ∈ db, l.linkUrl ≠ rl.linkUrl) ∧
      db' = db ++ [mkRemote n now rl] ∧ n' = n + 1) := by
  unfold syncUpsert at hok
  cases hf : snapshot.find? (fun ll => decide (ll.linkUrl = rl.linkUrl)) with
  | some ex =>
    rw [hf] at hok
    have hpair := Except.ok.inj hok
    have hdb : db' = db.map (fun l => if l.id = ex.id then applyRemote l rl else l) :=
      (congrArg Prod.fst hpair).symm
    have hn : n' = n := (congrArg Prod.snd hpair).symm
    have hpred : ex.linkUrl = rl.linkUrl := by
      have hp := List.find?_some hf
      simpa using hp
    exact Or.inl ⟨ex, List.mem_of_find?_eq_some hf, hpred, rfl, hdb, hn⟩
  | none =>
    rw [hf] at hok
    by_cases hany : db.any (fun l => decide (l.linkUrl = rl.linkUrl)) = true
    · rw [if_pos hany] at hok
      exact absurd hok (by simp)
    · rw [if_neg hany] at hok
      have hpair := Except.ok.inj hok
      refine Or.inr ⟨?_, (congrArg Prod.fst hpair).symm, (congrArg Prod.snd hpair).symm⟩
      intro l hl heq
      exact hany (List.any_eq_true.mpr ⟨l, hl, decide_eq_true heq⟩)

/-- In the update branch, the rewritten record keeps its url: the snapshot
match was made on that very url. -/
theorem update_map_url {snapshot : List TrackedLink} {urls : List String}
    {db : List TrackedLink} {n : Nat} {rl : RemoteLink} {ex : TrackedLink}
    (hinv : SyncInv snapshot urls db n)
    (hex : ex ∈ snapshot) (hexUrl : ex.linkUrl = rl.linkUrl) :
    ∀ l ∈ db, ((if l.id = ex.id then applyRemote l rl else l)).linkUrl = l.linkUrl := by
  intro l hl
  by_cases hid : l.id = ex.id
  · rw [if_pos hid, applyRemote_linkUrl, ← hexUrl]
    exact hinv.agree l hl ex hex hid.symm
  · rw [if_neg hid]

/-- A successful `syncUpsert` preserves the loop invariant. -/
theorem syncUpsert_inv {snapshot : List TrackedLink} {urls : List String}
    {now : Timestamp} {rl : RemoteLink} {db db' : List TrackedLink} {n n' : Nat}
    (hinv : SyncInv snapshot urls db n) (hu : rl.linkUrl ∈ urls)
    (hok : syncUpsert snapshot now rl db n = Except.ok (db', n')) :
    SyncInv snapshot urls db' n' ∧ n ≤ n' := by
  rcases syncUpsert_cases hok with
    ⟨ex, hex, hexUrl, _, hdb, hn⟩ | ⟨hfresh, hdb, hn⟩
  · -- update branch: db' = db.map f, ids and urls are preserved pointwise
    subst hdb hn
    set f := fun l : TrackedLink => if l.id = ex.id then applyRemote l rl else l with hfdef
    have hfid : ∀ l ∈ db, (f l).id = l.id := by
      intro l hl
      by_cases hid : l.id = ex.id
      · simp only [hfdef, if_pos hid, applyRemote_id]
      · simp only [hfdef, if_neg hid]
    have hfurl : ∀ l ∈ db, (f l).linkUrl = l.linkUrl :=
      update_map_url hinv hex hexUrl
    have hmapid : (db.map f).map TrackedLink.id = db.map TrackedLink.id := by
      rw [List.map_map]
      exact List.map_congr_left (fun l hl => hfid l hl)
    have hmapurl : (db.map f).map TrackedLink.linkUrl = db.map TrackedLink.linkUrl := by
      rw [List.map_map]
      exact List.map_congr_left (fun l hl => hfurl l hl)
    refine ⟨⟨?_, ?_, ?_, ?_, ?_, ?_⟩, le_refl _⟩
    · rw [hmapid]; exact hinv.idNodup
    · rw [hmapurl]; exact hinv.urlNodup
    · intro l' hl'
      rcases List.mem_map.mp hl' with ⟨l, hl, rfl⟩
      rw [hfid l hl]
      exact hinv.idLt l hl
    · intro l' hl' s hs hsid
      rcases List.mem_map.mp hl' with ⟨l, hl, rfl⟩
      rw [hfurl l hl]
      exact hinv.agree l hl s hs (hsid.trans (hfid l hl))
    · intro s hs
      rcases hinv.present s hs with ⟨l, hl, hlid⟩
      exact ⟨f l, List.mem_map_of_mem f hl, (hfid l hl).trans hlid⟩
    · intro l' hl'
      rcases List.mem_map.mp hl' with ⟨l, hl, rfl⟩
      by_cases hid : l.id = ex.id
      · right
        have : (f l).linkUrl = rl.linkUrl := by
          simp only [hfdef, if_pos hid, applyRemote_linkUrl]
        rw [this]; exact hu
      · have : f l = l := by simp only [hfdef, if_neg hid]
        rw [this]
        exact hinv.origin l hl
  · -- create branch: db' = db ++ [fresh record]
    subst hdb hn
    have hnewid : (mkRemote n now rl).id = n := rfl
    refine ⟨⟨?_, ?_, ?_, ?_, ?_, ?_⟩, Nat.le_succ n⟩
    · rw [List.map_append, List.nodup_append]
      refine ⟨hinv.idNodup, List.nodup_singleton _, ?_⟩
      intro a ha hb
      simp only [List.map_cons, List.map_nil, List.mem_singleton] at hb
      rcases List.mem_map.mp ha with ⟨l, hl, rfl⟩
      have := hinv.idLt l hl
      rw [hb, hnewid] at this
      exact lt_irrefl n this
    · rw [List.map_append, List.nodup_append]
      refine ⟨hinv.urlNodup, List.nodup_singleton _, ?_⟩
      intro a ha hb
      simp only [List.map_cons, List.map_nil, List.mem_singleton] at hb
      rcases List.mem_map.mp ha with ⟨l, hl, rfl⟩
      exact hfresh l hl hb
    · intro l hl
      rcases List.mem_append.mp hl with hl | hl
      · exact Nat.lt_succ_of_lt (hinv.idLt l hl)
      · rw [List.mem_singleton.mp hl, hnewid]
        exact Nat.lt_succ_self n
    · intro l hl s hs hsid
      rcases List.mem_append.mp hl with hl | hl
      · exact hinv.agree l hl s hs hsid
      · exfalso
        rcases hinv.present s hs with ⟨a, ha, haid⟩
        have h1 : a.id < n := hinv.idLt a ha
        rw [List.mem_singleton.mp hl, hnewid] at hsid
        rw [haid, hsid] at h1
        exact lt_irrefl n h1
    · intro s hs
      rcases hinv.present s hs with ⟨l, hl, hlid⟩
      exact ⟨l, List.mem_append_left _ hl, hlid⟩
    · intro l hl
      rcases List.mem_append.mp hl with hl | hl
      · exact hinv.origin l hl
      · right
        rw [List.mem_singleton.mp hl, mkRemote_linkUrl]
        exact hu

/-- The upsert loop preserves the invariant. -/
theorem syncUpsertLoop_inv {snapshot : List TrackedLink} {urls : List String}
    {now : Timestamp} : ∀ {rs : List RemoteLink} {db db' : List TrackedLink} {n n' : Nat},
    (∀ r ∈ rs, r.linkUrl ∈ urls) → SyncInv snapshot urls db n →
    syncUpsertLoop snapshot now rs db n = Except.ok (db', n') →
    SyncInv snapshot urls db' n' ∧ n ≤ n'
  | [], db, db', n, n', _, hinv, hok => by
    have hpair := Except.ok.inj hok
    cases hpair
    exact ⟨hinv, le_refl n⟩
  | rl :: rest, db, db', n, n', hU, hinv, hok => by
    rw [syncUpsertLoop] at hok
    cases hstep : syncUpsert snapshot now rl db n with
    | error e => rw [hstep] at hok; exact absurd hok (by simp)
    | ok p =>
      rw [hstep] at hok
      obtain ⟨db₁, n₁⟩ := p
      have h₁ := syncUpsert_inv hinv (hU rl (List.mem_cons_self rl rest)) hstep
      have h₂ := syncUpsertLoop_inv (fun r hr => hU r (List.mem_cons_of_mem rl hr)) h₁.1 hok
      exact ⟨h₂.1, le_trans h₁.2 h₂.2⟩

/-- A url present in the store before the upsert loop is still present after:
updates keyed by a snapshot match never change a record's url. -/
theorem syncUpsertLoop_url_persist {snapshot : List TrackedLink} {urls : List String}
    {now : Timestamp} {u : String} :
    ∀ {rs : List RemoteLink} {db db' : List TrackedLink} {n n' : Nat},
    (∀ r ∈ rs, r.linkUrl ∈ urls) → SyncInv snapshot urls db n →
    syncUpsertLoop snapshot now rs db n = Except.ok (db', n') →
    (∃ l ∈ db, l.linkUrl = u) → ∃ l ∈ db', l.linkUrl = u
  | [], db, db', n, n', _, _, hok, hmem => by
    have hpair := Except.ok.inj hok
    cases hpair
    exact hmem
  | rl :: rest, db, db', n, n', hU, hinv, hok, hmem => by
    rw [syncUpsertLoop] at hok
    cases hstep : syncUpsert snapshot now rl db n with
    | error e => rw [hstep] at hok; exact absurd hok (by simp)
    | ok p =>
      rw [hstep] at hok
      obtain ⟨db₁, n₁⟩ := p
      have hinv₁ := (syncUpsert_inv hinv (hU rl (List.mem_cons_self rl rest)) hstep).1
      refine syncUpsertLoop_url_persist
        (fun r hr => hU r (List.mem_cons_of_mem rl hr)) hinv₁ hok ?_
      rcases hmem with ⟨l, hl, hlu⟩
      rcases syncUpsert_cases hstep with
        ⟨ex, hex, hexUrl, _, hdb, _⟩ | ⟨_, hdb, _⟩
      · subst hdb
        refine ⟨(if l.id = ex.id then applyRemote l rl else l),
          List.mem_map_of_mem _ hl, ?_⟩
        rw [update_map_url hinv hex hexUrl l hl]
        exact hlu
      · subst hdb
        exact ⟨l, List.mem_append_left _ hl, hlu⟩

/-- After the upsert loop every remote url is present in the store. -/
theorem syncUpsertLoop_covers {snapshot : List TrackedLink} {urls : List String}
    {now : Timestamp} :
    ∀ {rs : List RemoteLink} {db db' : List TrackedLink} {n n' : Nat},
    (∀ r ∈ rs, r.linkUrl ∈ urls) → SyncInv snapshot urls db n →
    syncUpsertLoop snapshot now rs db n = Except.ok (db', n') →
    ∀ r ∈ rs, ∃ l ∈ db', l.linkUrl = r.linkUrl
  | [], _, _, _, _, _, _, _ => by
    intro r hr
    exact absurd hr (List.not_mem_nil r)
  | rl :: rest, db, db', n, n', hU, hinv, hok => by
    intro r hr
    rw [syncUpsertLoop] at hok
    cases hstep : syncUpsert snapshot now rl db n with
    | error e => rw [hstep] at hok; exact absurd hok (by simp)
    | ok p =>
      rw [hstep] at hok
      obtain ⟨db₁, n₁⟩ := p
      have hinv₁ := (syncUpsert_inv hinv (hU rl (List.mem_cons_self rl rest)) hstep).1
      have hUrest : ∀ x ∈ rest, x.linkUrl ∈ urls :=
        fun x hx => hU x (List.mem_cons_of_mem rl hx)
      rcases List.mem_cons.mp hr with rfl | hr
      · -- the head item: present in db₁, then persists through the rest
        refine syncUpsertLoop_url_persist hUrest hinv₁ hok ?_
        rcases syncUpsert_cases hstep with
          ⟨ex, hex, hexUrl, _, hdb, _⟩ | ⟨_, hdb, _⟩
        · subst hdb
          rcases hinv.present ex hex with ⟨a, ha, haid⟩
          refine ⟨(if a.id = ex.id then applyRemote a r else a),
            List.mem_map_of_mem _ ha, ?_⟩
          rw [if_pos haid, applyRemote_linkUrl]
        · subst hdb
          exact ⟨mkRemote n now r, List.mem_append_right _ (List.mem_singleton_self _),
            mkRemote_linkUrl n now r⟩
      · exact syncUpsertLoop_covers hUrest hinv₁ hok r hr

/-- Membership after the delete loop: a record survives iff no snapshot
record with a non-remote url shares its id. -/
theorem syncDeleteLoop_mem {remoteUrls : List String} :
    ∀ {snap db : List TrackedLink} {l : TrackedLink},
    l ∈ syncDeleteLoop remoteUrls snap db ↔
      l ∈ db ∧ ∀ s ∈ snap, s.linkUrl ∉ remoteUrls → s.id ≠ l.id
  | [], db, l => by
    simp [syncDeleteLoop]
  | s :: rest, db, l => by
    rw [syncDeleteLoop]
    by_cases hs : s.linkUrl ∈ remoteUrls
    · rw [if_pos (decide_eq_true hs), syncDeleteLoop_mem]
      constructor
      · rintro ⟨hl, hrest⟩
        refine ⟨hl, ?_⟩
        intro t ht htu
        rcases List.mem_cons.mp ht with rfl | ht
        · exact absurd hs htu
        · exact hrest t ht htu
      · rintro ⟨hl, hall⟩
        exact ⟨hl, fun t ht htu => hall t (List.mem_cons_of_mem s ht) htu⟩
    · rw [if_neg (by simpa using hs), syncDeleteLoop_mem]
      constructor
      · rintro ⟨hl, hrest⟩
        rcases List.mem_filter.mp hl with ⟨hldb, hlid⟩
        refine ⟨hldb, ?_⟩
        intro t ht htu
        rcases List.mem_cons.mp ht with rfl | ht
        · exact (of_decide_eq_true hlid).symm
        · exact hrest t ht htu
      · rintro ⟨hl, hall⟩
        refine ⟨List.mem_filter.mpr ⟨hl, ?_⟩, ?_⟩
        · exact decide_eq_true (hall s (List.mem_cons_self s rest) hs).symm
        · exact fun t ht htu => hall t (List.mem_cons_of_mem s ht) htu

/-- When every snapshot url is still remote, the delete loop is a no-op. -/
theorem syncDeleteLoop_eq_self {remoteUrls : List String} :
    ∀ {snap db : List TrackedLink},
    (∀ s ∈ snap, s.linkUrl ∈ remoteUrls) → syncDeleteLoop remoteUrls snap db = db
  | [], db, _ => rfl
  | s :: rest, db, hall => by
    rw [syncDeleteLoop,
      if_pos (decide_eq_true (hall s (List.mem_cons_self s rest)))]
    exact syncDeleteLoop_eq_self (fun t ht => hall t (List.mem_cons_of_mem s ht))

/-- The delete loop only removes records. -/
theorem syncDeleteLoop_sublist {remoteUrls : List String} :
    ∀ {snap db : List TrackedLink},
    (syncDeleteLoop remoteUrls snap db).Sublist db
  | [], db => List.Sublist.refl db
  | s :: rest, db => by
    rw [syncDeleteLoop]
    by_cases hs : (decide (s.linkUrl ∈ remoteUrls)) = true
    · rw [if_pos hs]
      exact syncDeleteLoop_sublist
    · rw [if_neg hs]
      exact List.Sublist.trans syncDeleteLoop_sublist (List.filter_sublist db)

/-- Unfolding of a successful `synchronizeLinks` run into its two phases. -/
theorem synchronizeLinks_split {db db' : List TrackedLink} {remotes : List RemoteLink}
    {now : Timestamp} {nextId n' : Nat}
    (hok : synchronizeLinks db remotes now nextId = Except.ok (db', n')) :
    ∃ db₁, syncUpsertLoop db now remotes db nextId = Except.ok (db₁, n') ∧
      db' = syncDeleteLoop (remotes.map RemoteLink.linkUrl) db db₁ := by
  unfold synchronizeLinks at hok
  cases hloop : syncUpsertLoop db now remotes db nextId with
  | error e => rw [hloop] at hok; exact absurd hok (by simp)
  | ok p =>
    rw [hloop] at hok
    obtain ⟨db₁, n₁⟩ := p
    have hpair := Except.ok.inj hok
    have hdb : db' = syncDeleteLoop (remotes.map RemoteLink.linkUrl) db db₁ :=
      (congrArg Prod.fst hpair).symm
    have hn : n' = n₁ := (congrArg Prod.snd hpair).symm
    subst hn
    exact ⟨db₁, rfl, hdb⟩

/-- The invariant at the start of the loop, from the store invariants:
distinct ids, distinct urls, ids below the id counter. -/
theorem syncInv_init {db : List TrackedLink} {nextId : Nat}
    (hid : (db.map TrackedLink.id).Nodup)
    (hurl : (db.map TrackedLink.linkUrl).Nodup)
    (hlt : ∀ l ∈ db, l.id < nextId) (urls : List String) :
    SyncInv db urls db nextId := by
  refine ⟨hid, hurl, hlt, ?_, ?_, ?_⟩
  · intro l hl s hs hsid
    rw [List.inj_on_of_nodup_map hid hs hl hsid]
  · exact fun s hs => ⟨s, hs, rfl⟩
  · exact fun l hl => Or.inl ⟨l, hl, rfl, rfl⟩

/-- C1: after every successful `synchronizeLinks` run on a well-formed local
store (distinct record ids and urls, ids below the id counter — the database
invariants), the set of local `linkUrl` values equals exactly the set of
remote `linkUrl` values: every remote item was inserted or updated (matched
by `linkUrl`) and every local record absent from the remote set was deleted. -/
theorem synchronizeLinks_completeness
    (db : List TrackedLink) (remotes : List RemoteLink) (now : Timestamp) (nextId : Nat)
    (db' : List TrackedLink) (n' : Nat)
    (hid : (db.map TrackedLink.id).Nodup)
    (hurl : (db.map TrackedLink.linkUrl).Nodup)
    (hlt : ∀ l ∈ db, l.id < nextId)
    (hok : synchronizeLinks db remotes now nextId = Except.ok (db', n')) :
    (db'.map TrackedLink.linkUrl).toFinset = (remotes.map RemoteLink.linkUrl).toFinset := by
  obtain ⟨db₁, hloop, hdel⟩ := synchronizeLinks_split hok
  have hU : ∀ r ∈ remotes, r.linkUrl ∈ remotes.map RemoteLink.linkUrl :=
    fun r hr => List.mem_map_of_mem _ hr
  have hinv0 := syncInv_init hid hurl hlt (remotes.map RemoteLink.linkUrl)
  have hinv1 := (syncUpsertLoop_inv hU hinv0 hloop).1
  apply Finset.ext
  intro u
  rw [List.mem_toFinset, List.mem_toFinset, List.mem_map, List.mem_map]
  constructor
  · rintro ⟨l, hl, rfl⟩
    rw [hdel] at hl
    rcases syncDeleteLoop_mem.mp hl with ⟨hl1, hkeep⟩
    rcases hinv1.origin l hl1 with ⟨s, hs, hsid, hsurl⟩ | hmem
    · have hsu : s.linkUrl ∈ remotes.map RemoteLink.linkUrl := by
        by_contra hcon
        exact hkeep s hs hcon hsid
      rw [hsurl] at hsu
      rcases List.mem_map.mp hsu with ⟨r, hr, hru⟩
      exact ⟨r, hr, hru⟩
    · rcases List.mem_map.mp hmem with ⟨r, hr, hru⟩
      exact ⟨r, hr, hru⟩
  · rintro ⟨r, hr, rfl⟩
    rcases syncUpsertLoop_covers hU hinv0 hloop r hr with ⟨l, hl1, hlu⟩
    refine ⟨l, ?_, hlu⟩
    rw [hdel]
    refine syncDeleteLoop_mem.mpr ⟨hl1, ?_⟩
    intro s hs hsu hsid
    apply hsu
    have hsl := hinv1.agree l hl1 s hs hsid
    rw [hsl, hlu]
    exact List.mem_map_of_mem _ hr

/-- Concrete reconciliation scenario from the spec: local records A/B. -/
def linkC1A : TrackedLink :=
  { id := 0, fileId := "fa", fileName := "a.txt", filePath := "/a"
    shareType := ShareType.SPECIFIC_PEOPLE, linkUrl := "url1", ownerId := "alice"
    createdAt := 10, expiresAt := some 100
    recipients := [{ recipient := "r@x.com", permission := Permission.VIEW }] }

def linkC1B : TrackedLink :=
  { id := 1, fileId := "fb", fileName := "b.txt", filePath := "/b"
    shareType := ShareType.SPECIFIC_PEOPLE, linkUrl := "url2", ownerId := "alice"
    createdAt := 20, expiresAt := some 200, recipients := [] }

/-- Remote item with url1 and changed fields. -/
def remC1A : RemoteLink :=
  { fileId := "fa2", fileName := "a2.txt", filePath := "/a2", linkUrl := "url1"
    expiresAt := some 150, ownerId := "bob", shareType := ShareType.ANYONE
    recipients := [] }

/-- Remote item with the new url3. -/
def remC1C : RemoteLink :=
  { fileId := "fc", fileName := "c.txt", filePath := "/c", linkUrl := "url3"
    expiresAt := some 300, ownerId := "alice", shareType := ShareType.SPECIFIC_PEOPLE
    recipients := [] }

/-- Witness for C1 at the spec scenario `{A(url1), B(url2)}` vs
`{A'(url1), C(url3)}`: after sync the local url set is `{url1, url3}`. -/
theorem synchronizeLinks_completeness_witness :
    ([linkC1A, linkC1B].map TrackedLink.id).Nodup ∧
    ([linkC1A, linkC1B].map TrackedLink.linkUrl).Nodup ∧
    (([applyRemote linkC1A remC1A, mkRemote 2 5 remC1C].map TrackedLink.linkUrl).toFinset =
      ([remC1A, remC1C].map RemoteLink.linkUrl).toFinset) :=
  ⟨by decide, by decide,
    synchronizeLinks_completeness [linkC1A, linkC1B] [remC1A, remC1C] 5 2
      [applyRemote linkC1A remC1A, mkRemote 2 5 remC1C] 3
      (by decide) (by decide) (by decide) (by rfl)⟩

/-- Once every record carrying `r.linkUrl` already holds exactly `r`'s fields,
processing remote items with other urls cannot disturb that. -/
theorem syncUpsertLoop_matched_persist {snapshot : List TrackedLink}
    {urls : List String} {now : Timestamp} {r : RemoteLink} :
    ∀ {rs : List RemoteLink} {db db' : List TrackedLink} {n n' : Nat},
    (∀ x ∈ rs, x.linkUrl ∈ urls) → SyncInv snapshot urls db n →
    syncUpsertLoop snapshot now rs db n = Except.ok (db', n') →
    r.linkUrl ∉ rs.map RemoteLink.linkUrl →
    (∀ l ∈ db, l.linkUrl = r.linkUrl → applyRemote l r = l) →
    ∀ l ∈ db', l.linkUrl = r.linkUrl → applyRemote l r = l
  | [], db, db', n, n', _, _, hok, _, hbase => by
    have hpair := Except.ok.inj hok
    cases hpair
    exact hbase
  | rl :: rest, db, db', n, n', hU, hinv, hok, hnm, hbase => by
    rw [syncUpsertLoop] at hok
    cases hstep : syncUpsert snapshot now rl db n with
    | error e => rw [hstep] at hok; exact absurd hok (by simp)
    | ok p =>
      rw [hstep] at hok
      obtain ⟨db₁, n₁⟩ := p
      have hinv₁ := (syncUpsert_inv hinv (hU rl (List.mem_cons_self rl rest)) hstep).1
      have hne : r.linkUrl ≠ rl.linkUrl := by
        intro hcon
        exact hnm (by rw [List.map_cons, hcon]; exact List.mem_cons_self _ _)
      have hnm₁ : r.linkUrl ∉ rest.map RemoteLink.linkUrl := by
        intro hcon
        exact hnm (by rw [List.map_cons]; exact List.mem_cons_of_mem _ hcon)
      refine syncUpsertLoop_matched_persist
        (fun x hx => hU x (List.mem_cons_of_mem rl hx)) hinv₁ hok hnm₁ ?_
      rcases syncUpsert_cases hstep with
        ⟨ex, hex, hexUrl, _, hdb, _⟩ | ⟨hfresh, hdb, _⟩
      · subst hdb
        intro l' hl' hurl'
        rcases List.mem_map.mp hl' with ⟨a, ha, rfl⟩
        have haurl : a.linkUrl = r.linkUrl := by
          rw [← update_map_url hinv hex hexUrl a ha]
          exact hurl'
        by_cases hid2 : a.id = ex.id
        · exfalso
          have h1 : (if a.id = ex.id then applyRemote a rl else a).linkUrl = rl.linkUrl := by
            rw [if_pos hid2, applyRemote_linkUrl]
          rw [update_map_url hinv hex hexUrl a ha] at h1
          exact hne (haurl.symm.trans h1)
        · rw [if_neg hid2] at hurl' ⊢
          exact hbase a ha hurl'
      · subst hdb
        intro l' hl' hurl'
        rcases List.mem_append.mp hl' with hl' | hl'
        · exact hbase l' hl' hurl'
        · exfalso
          rw [List.mem_singleton.mp hl', mkRemote_linkUrl] at hurl'
          exact hne hurl'.symm

/-- After the upsert loop, every record carrying some remote item's url holds
exactly that item's remote-sourced fields (remote urls pairwise distinct). -/
theorem syncUpsertLoop_matched {snapshot : List TrackedLink}
    {urls : List String} {now : Timestamp} :
    ∀ {rs : List RemoteLink} {db db' : List TrackedLink} {n n' : Nat},
    (∀ x ∈ rs, x.linkUrl ∈ urls) → SyncInv snapshot urls db n →
    (rs.map RemoteLink.linkUrl).Nodup →
    syncUpsertLoop snapshot now rs db n = Except.ok (db', n') →
    ∀ r ∈ rs, ∀ l ∈ db', l.linkUrl = r.linkUrl → applyRemote l r = l
  | [], _, _, _, _, _, _, _, _ => by
    intro r hr
    exact absurd hr (List.not_mem_nil r)
  | rl :: rest, db, db', n, n', hU, hinv, hnd, hok => by
    intro r hr
    rw [syncUpsertLoop] at hok
    cases hstep : syncUpsert snapshot now rl db n with
    | error e => rw [hstep] at hok; exact absurd hok (by simp)
    | ok p =>
      rw [hstep] at hok
      obtain ⟨db₁, n₁⟩ := p
      have hinv₁ := (syncUpsert_inv hinv (hU rl (List.mem_cons_self rl rest)) hstep).1
      have hUrest : ∀ x ∈ rest, x.linkUrl ∈ urls :=
        fun x hx => hU x (List.mem_cons_of_mem rl hx)
      have hndtail : (rest.map RemoteLink.linkUrl).Nodup := by
        rw [List.map_cons] at hnd
        exact hnd.of_cons
      rcases List.mem_cons.mp hr with rfl | hr
      · -- head item: establish the field agreement on db₁, then persist
        have hhead : r.linkUrl ∉ rest.map RemoteLink.linkUrl := by
          rw [List.map_cons] at hnd
          exact (List.nodup_cons.mp hnd).1
        refine syncUpsertLoop_matched_persist hUrest hinv₁ hok hhead ?_
        rcases syncUpsert_cases hstep with
          ⟨ex, hex, hexUrl, _, hdb, _⟩ | ⟨hfresh, hdb, _⟩
        · subst hdb
          intro l' hl' hurl'
          rcases List.mem_map.mp hl' with ⟨a, ha, rfl⟩
          have haurl : a.linkUrl = r.linkUrl := by
            rw [← update_map_url hinv hex hexUrl a ha]
            exact hurl'
          -- decide whether `a` is the matched record; with distinct store urls
          -- it must be, because the record with `ex.id` carries this very url
          rcases hinv.present ex hex with ⟨a₀, ha₀, ha₀id⟩
          have ha₀url : a₀.linkUrl = r.linkUrl := by
            rw [← hexUrl]
            exact (hinv.agree a₀ ha₀ ex hex ha₀id.symm).symm
          have haa : a = a₀ :=
            List.inj_on_of_nodup_map hinv.urlNodup ha ha₀ (haurl.trans ha₀url.symm)
          have hid2 : a.id = ex.id := by rw [haa, ha₀id]
          rw [if_pos hid2]
          exact applyRemote_applyRemote a r
        · subst hdb
          intro l' hl' hurl'
          rcases List.mem_append.mp hl' with hl' | hl'
          · exact absurd hurl' (hfresh l' hl')
          · rw [List.mem_singleton.mp hl']
            exact applyRemote_mkRemote n now r
      · exact syncUpsertLoop_matched hUrest hinv₁ hndtail hok r hr

/-- When every remote item already matches a local record holding exactly its
fields, the upsert loop rewrites every record to itself: the store is a
fixpoint (store also serves as its own snapshot, as in `synchronizeLinks`). -/
theorem syncUpsertLoop_fixpoint {now : Timestamp} :
    ∀ {rs : List RemoteLink} {db : List TrackedLink} {n : Nat},
    (db.map TrackedLink.id).Nodup →
    (∀ r ∈ rs, ∃ l ∈ db, l.linkUrl = r.linkUrl) →
    (∀ r ∈ rs, ∀ l ∈ db, l.linkUrl = r.linkUrl → applyRemote l r = l) →
    syncUpsertLoop db now rs db n = Except.ok (db, n)
  | [], db, n, _, _, _ => rfl
  | rl :: rest, db, n, hid, hcov, hmat => by
    rw [syncUpsertLoop]
    have hfind : ∃ ex, db.find? (fun ll => decide (ll.linkUrl = rl.linkUrl)) = some ex := by
      cases hf : db.find? (fun ll => decide (ll.linkUrl = rl.linkUrl)) with
      | none =>
        rcases hcov rl (List.mem_cons_self rl rest) with ⟨l₀, hl₀, hurl₀⟩
        exact absurd (decide_eq_true hurl₀) (List.find?_eq_none.mp hf l₀ hl₀)
      | some ex => exact ⟨ex, rfl⟩
    rcases hfind with ⟨ex, hf⟩
    have hex := List.mem_of_find?_eq_some hf
    have hexUrl : ex.linkUrl = rl.linkUrl := by
      have hp := List.find?_some hf
      simpa using hp
    have hmap : db.map (fun l => if l.id = ex.id then applyRemote l rl else l) = db := by
      have h1 : ∀ a ∈ db, (if a.id = ex.id then applyRemote a rl else a) = a := by
        intro a ha
        by_cases hid2 : a.id = ex.id
        · rw [if_pos hid2]
          have haex : a = ex := List.inj_on_of_nodup_map hid ha hex hid2
          subst haex
          exact hmat rl (List.mem_cons_self rl rest) a ha hexUrl
        · rw [if_neg hid2]
      rw [List.map_congr_left h1]
      simp
    have hstep : syncUpsert db now rl db n = Except.ok (db, n) := by
      unfold syncUpsert
      rw [hf]
      show Except.ok (db.map (fun l => if l.id = ex.id then applyRemote l rl else l), n) =
        Except.ok (db, n)
      rw [hmap]
    rw [hstep]
    exact syncUpsertLoop_fixpoint hid
      (fun r hr => hcov r (List.mem_cons_of_mem rl hr))
      (fun r hr => hmat r (List.mem_cons_of_mem rl hr))

/-- Every record surviving a successful run carries a remote url. -/
theorem synchronizeLinks_urls_subset
    {db : List TrackedLink} {remotes : List RemoteLink} {now : Timestamp}
    {nextId : Nat} {db' : List TrackedLink} {n' : Nat}
    (hid : (db.map TrackedLink.id).Nodup)
    (hurl : (db.map TrackedLink.linkUrl).Nodup)
    (hlt : ∀ l ∈ db, l.id < nextId)
    (hok : synchronizeLinks db remotes now nextId = Except.ok (db', n')) :
    ∀ l ∈ db', l.linkUrl ∈ remotes.map RemoteLink.linkUrl := by
  obtain ⟨db₁, hloop, hdel⟩ := synchronizeLinks_split hok
  have hU : ∀ r ∈ remotes, r.linkUrl ∈ remotes.map RemoteLink.linkUrl :=
    fun r hr => List.mem_map_of_mem _ hr
  have hinv1 := (syncUpsertLoop_inv hU (syncInv_init hid hurl hlt _) hloop).1
  intro l hl
  rw [hdel] at hl
  rcases syncDeleteLoop_mem.mp hl with ⟨hl1, hkeep⟩
  rcases hinv1.origin l hl1 with ⟨s, hs, hsid, hsurl⟩ | hmem
  · have hsu : s.linkUrl ∈ remotes.map RemoteLink.linkUrl := by
      by_contra hcon
      exact hkeep s hs hcon hsid
    rw [← hsurl]
    exact hsu
  · exact hmem

/-- Every remote url is carried by some record surviving a successful run. -/
theorem synchronizeLinks_urls_covers
    {db : List TrackedLink} {remotes : List RemoteLink} {now : Timestamp}
    {nextId : Nat} {db' : List TrackedLink} {n' : Nat}
    (hid : (db.map TrackedLink.id).Nodup)
    (hurl : (db.map TrackedLink.linkUrl).Nodup)
    (hlt : ∀ l ∈ db, l.id < nextId)
    (hok : synchronizeLinks db remotes now nextId = Except.ok (db', n')) :
    ∀ r ∈ remotes, ∃ l ∈ db', l.linkUrl = r.linkUrl := by
  obtain ⟨db₁, hloop, hdel⟩ := synchronizeLinks_split hok
  have hU : ∀ r ∈ remotes, r.linkUrl ∈ remotes.map RemoteLink.linkUrl :=
    fun r hr => List.mem_map_of_mem _ hr
  have hinv0 := syncInv_init hid hurl hlt (remotes.map RemoteLink.linkUrl)
  have hinv1 := (syncUpsertLoop_inv hU hinv0 hloop).1
  intro r hr
  rcases syncUpsertLoop_covers hU hinv0 hloop r hr with ⟨l, hl1, hlu⟩
  refine ⟨l, ?_, hlu⟩
  rw [hdel]
  refine syncDeleteLoop_mem.mpr ⟨hl1, ?_⟩
  intro s hs hsu hsid
  apply hsu
  have hsl := hinv1.agree l hl1 s hs hsid
  rw [hsl, hlu]
  exact List.mem_map_of_mem _ hr

/-- C6: with pairwise-distinct remote urls, a second `synchronizeLinks` run
against an unchanged remote set is a no-op: every remote item matches an
existing record by `linkUrl` and rewrites it with identical values, nothing
is created or deleted, and the store after the second run equals the store
after the first. -/
theorem synchronizeLinks_idempotent
    (db : List TrackedLink) (remotes : List RemoteLink) (now now2 : Timestamp)
    (nextId : Nat) (db1 : List TrackedLink) (n1 : Nat)
    (hid : (db.map TrackedLink.id).Nodup)
    (hurl : (db.map TrackedLink.linkUrl).Nodup)
    (hlt : ∀ l ∈ db, l.id < nextId)
    (hrem : (remotes.map RemoteLink.linkUrl).Nodup)
    (hok : synchronizeLinks db remotes now nextId = Except.ok (db1, n1)) :
    synchronizeLinks db1 remotes now2 n1 = Except.ok (db1, n1) := by
  obtain ⟨dbA, hloop, hdel⟩ := synchronizeLinks_split hok
  have hU : ∀ r ∈ remotes, r.linkUrl ∈ remotes.map RemoteLink.linkUrl :=
    fun r hr => List.mem_map_of_mem _ hr
  have hinv0 := syncInv_init hid hurl hlt (remotes.map RemoteLink.linkUrl)
  have hinvA := (syncUpsertLoop_inv hU hinv0 hloop).1
  have hsub : db1.Sublist dbA := by
    rw [hdel]
    exact syncDeleteLoop_sublist
  have hid1 : (db1.map TrackedLink.id).Nodup :=
    (hsub.map TrackedLink.id).nodup hinvA.idNodup
  have hcov1 : ∀ r ∈ remotes, ∃ l ∈ db1, l.linkUrl = r.linkUrl :=
    synchronizeLinks_urls_covers hid hurl hlt hok
  have hmat1 : ∀ r ∈ remotes, ∀ l ∈ db1, l.linkUrl = r.linkUrl → applyRemote l r = l :=
    fun r hr l hl =>
      syncUpsertLoop_matched hU hinv0 hrem hloop r hr l (hsub.subset hl)
  have hall1 : ∀ l ∈ db1, l.linkUrl ∈ remotes.map RemoteLink.linkUrl :=
    synchronizeLinks_urls_subset hid hurl hlt hok
  unfold synchronizeLinks
  rw [syncUpsertLoop_fixpoint hid1 hcov1 hmat1]
  show Except.ok (syncDeleteLoop (remotes.map RemoteLink.linkUrl) db1 db1, n1) =
    Except.ok (db1, n1)
  rw [syncDeleteLoop_eq_self hall1]

/-- Witness for C6 at the spec scenario: the second run returns the first
run's store unchanged. -/
theorem synchronizeLinks_idempotent_witness :
    ([remC1A, remC1C].map RemoteLink.linkUrl).Nodup ∧
    synchronizeLinks [applyRemote linkC1A remC1A, mkRemote 2 5 remC1C] [remC1A, remC1C] 7 3 =
      Except.ok ([applyRemote linkC1A remC1A, mkRemote 2 5 remC1C], 3) :=
  ⟨by decide,
    synchronizeLinks_idempotent [linkC1A, linkC1B] [remC1A, remC1C] 5 7 2
      [applyRemote linkC1A remC1A, mkRemote 2 5 remC1C] 3
      (by decide) (by decide) (by decide) (by decide) (by rfl)⟩

/-- C8: `findExpiringLinks` returns exactly the stored links satisfying
`expiresAt IS NOT NULL AND expiresAt > now AND expiresAt <= now + daysThreshold`
days: `expiresAt = now` is excluded, the upper bound is inclusive, and
anything later is excluded. -/
theorem findExpiringLinks_mem (db : List TrackedLink) (now : Timestamp) (k : Int)
    (l : TrackedLink) :
    l ∈ findExpiringLinks db now k ↔
      l ∈ db ∧ ∃ e, l.expiresAt = some e ∧ now < e ∧ e ≤ addDays k now := by
  unfold findExpiringLinks
  rw [List.mem_filter]
  constructor
  · rintro ⟨hl, hp⟩
    refine ⟨hl, ?_⟩
    unfold expiringPred at hp
    cases he : l.expiresAt with
    | none => rw [he] at hp; exact absurd hp (by simp)
    | some e =>
      rw [he] at hp
      have hpe := of_decide_eq_true hp
      exact ⟨e, rfl, hpe.1, hpe.2⟩
  · rintro ⟨hl, e, he, h1, h2⟩
    refine ⟨hl, ?_⟩
    unfold expiringPred
    rw [he]
    exact decide_eq_true ⟨h1, h2⟩

/-- C5: for a non-admin caller every listed link is the caller's own and the
reported total counts only the caller's links; for an admin the listing is
unrestricted (drawn from the whole store, total counts everything). -/
theorem getLinks_rbac (user : User) (options : LinkQueryOptions) (db : List TrackedLink) :
    (user.role ≠ Role.ADMIN →
      (∀ l ∈ (getLinks user options db).1, l.ownerId = user.id) ∧
      (getLinks user options db).2 =
        (db.filter (fun l => decide (l.ownerId = user.id))).length) ∧
    (user.role = Role.ADMIN →
      (∀ l ∈ (getLinks user options db).1, l ∈ db) ∧
      (getLinks user options db).2 = db.length) := by
  constructor
  · intro hr
    constructor
    · intro l hl
      simp only [getLinks, if_neg hr] at hl
      have h2 := List.mem_of_mem_drop (List.mem_of_mem_take hl)
      have h3 := (List.mergeSort_perm _ _).mem_iff.mp h2
      rcases List.mem_filter.mp h3 with ⟨_, hp⟩
      exact of_decide_eq_true hp
    · simp only [getLinks, if_neg hr]
  · intro hr
    constructor
    · intro l hl
      simp only [getLinks, if_pos hr] at hl
      exact (List.mergeSort_perm _ _).mem_iff.mp
        (List.mem_of_mem_drop (List.mem_of_mem_take hl))
    · simp only [getLinks, if_pos hr]

/-- A regular user whose store holds one own link and one foreign link. -/
def userC5 : User := { id := "bob", email := "bob@x.com", role := Role.USER }

def linkC5own : TrackedLink :=
  { id := 0, fileId := "f0", fileName := "o.txt", filePath := "/o"
    shareType := ShareType.SPECIFIC_PEOPLE, linkUrl := "u0", ownerId := "bob"
    createdAt := 1, expiresAt := some 10, recipients := [] }

def linkC5other : TrackedLink :=
  { id := 1, fileId := "f1", fileName := "x.txt", filePath := "/x"
    shareType := ShareType.SPECIFIC_PEOPLE, linkUrl := "u1", ownerId := "alice"
    createdAt := 2, expiresAt := some 20, recipients := [] }

/-- Witness for C5: for the non-admin caller the reported total is the count
of the caller's own links only. -/
theorem getLinks_rbac_witness :
    (getLinks userC5 { page := none, limit := none, ownerId := none }
      [linkC5own, linkC5other]).2 =
    ([linkC5own, linkC5other].filter
      (fun l => decide (l.ownerId = userC5.id))).length :=
  ((getLinks_rbac userC5 { page := none, limit := none, ownerId := none }
    [linkC5own, linkC5other]).1 (by decide)).2

/-- C7: when no expiration is requested, a successfully created link expires
exactly at `now` plus the applicable policy maximum in days
(`maxDurationExternal` for a PUBLIC link, `maxDurationInternal` otherwise). -/
theorem createLink_default_expiration (sha256 : String → String) (p : Policy)
    (now : Timestamp) (params : CreateLinkParams) (db : List TrackedLink) (nextId : Nat)
    (link : TrackedLink) (db2 : List TrackedLink) (n2 : Nat)
    (hreq : params.expiresAt = none)
    (hok : createLink sha256 (some p) now params db nextId = Except.ok (link, db2, n2)) :
    link.expiresAt = some (addDays
      (if params.shareType = ShareType.ANYONE then p.maxDurationExternal
       else p.maxDurationInternal) now) := by
  unfold createLink at hok
  cases heval : evaluateExpiration (some p) params.shareType params.expiresAt now with
  | error e => rw [heval] at hok; exact absurd hok (by simp)
  | ok expires =>
    rw [heval] at hok
    cases hany : (db.any fun l => decide (l.linkUrl = params.linkUrl)) with
    | true => simp [hany] at hok
    | false =>
      simp only [hany, Bool.false_eq_true, if_false] at hok
      injection hok with h
      injection h with h1 h23
      rw [← h1]
      show some expires = _
      rw [hreq] at heval
      cases hst : params.shareType with
      | ANYONE =>
        rw [hst] at heval
        unfold evaluateExpiration at heval
        rw [if_pos rfl] at heval
        by_cases hpub : ((some p).map Policy.allowPublicSharing).getD false = false
        · rw [if_pos hpub] at heval; exact absurd heval (by simp)
        · rw [if_neg hpub] at heval
          rw [if_pos rfl, ← Except.ok.inj heval]
          rfl
      | SPECIFIC_PEOPLE =>
        rw [hst] at heval
        unfold evaluateExpiration at heval
        rw [if_neg (by decide)] at heval
        rw [if_neg (by decide), ← Except.ok.inj heval]
        rfl

/-- Policy and parameters for the spec scenario: PUBLIC link, no requested
expiration, `now` = 2024-01-01T00:00Z, `maxDurationExternal` = 30. -/
def polC7 : Policy :=
  { maxDurationInternal := 365, maxDurationExternal := 30, allowPublicSharing := true }

def paramsC7 : CreateLinkParams :=
  { fileName := "t.txt", filePath := "/t", shareType := ShareType.ANYONE
    recipients := [], linkUrl := "urlN", expiresAt := none, ownerId := "alice" }

/-- The record `createLink` persists in that scenario. -/
def linkC7 : TrackedLink :=
  { id := 0, fileId := "/t", fileName := "t.txt", filePath := "/t"
    shareType := ShareType.ANYONE, linkUrl := "urlN", ownerId := "alice"
    createdAt := 1704067200000, expiresAt := some 1706659200000, recipients := [] }

/-- Witness for C7: the scenario yields `expiresAt` = 2024-01-31T00:00Z
(epoch ms 1706659200000). -/
theorem createLink_default_expiration_witness :
    linkC7.expiresAt = some 1706659200000 := by
  have h := createLink_default_expiration (fun s => s) polC7 1704067200000 paramsC7 [] 0
    linkC7 [linkC7] 1 rfl (by rfl)
  rw [h]
  decide

/-- C10: with no Policy row (`policy.findFirst()` returns null), `createLink`
rejects every ANYONE link with `Public sharing not allowed` regardless of the
requested expiration, and applies the built-in 365-day maximum to every
SPECIFIC_PEOPLE link (reject past `now + 365` days, default to it when no
expiration is requested, accept an in-range request verbatim). -/
theorem createLink_missing_policy (sha256 : String → String) (now : Timestamp)
    (params : CreateLinkParams) (db : List TrackedLink) (nextId : Nat) :
    (params.shareType = ShareType.ANYONE →
      createLink sha256 none now params db nextId =
        Except.error "Public sharing not allowed") ∧
    (params.shareType = ShareType.SPECIFIC_PEOPLE →
      (∀ e, params.expiresAt = some e → addDays 365 now < e →
        createLink sha256 none now params db nextId =
          Except.error "Expiration date exceeds allowed internal limit") ∧
      (∀ e, params.expiresAt = some e → ¬ addDays 365 now < e →
        ∀ link db2 n2,
          createLink sha256 none now params db nextId = Except.ok (link, db2, n2) →
          link.expiresAt = some e) ∧
      (params.expiresAt = none →
        ∀ link db2 n2,
          createLink sha256 none now params db nextId = Except.ok (link, db2, n2) →
          link.expiresAt = some (addDays 365 now))) := by
  constructor
  · intro hs
    unfold createLink
    have he : evaluateExpiration none params.shareType params.expiresAt now =
        Except.error "Public sharing not allowed" := by
      rw [hs]
      rfl
    rw [he]
  · intro hs
    refine ⟨?_, ?_, ?_⟩
    · intro e he hgt
      unfold createLink
      have heval : evaluateExpiration none params.shareType params.expiresAt now =
          Except.error "Expiration date exceeds allowed internal limit" := by
        rw [hs, he]
        unfold evaluateExpiration
        rw [if_neg (by decide)]
        show (if addDays 365 now < e then
            Except.error "Expiration date exceeds allowed internal limit"
          else Except.ok e) = _
        rw [if_pos hgt]
      rw [heval]
    · intro e he hle link db2 n2 hok
      unfold createLink at hok
      have heval : evaluateExpiration none params.shareType params.expiresAt now =
          Except.ok e := by
        rw [hs, he]
        unfold evaluateExpiration
        rw [if_neg (by decide)]
        show (if addDays 365 now < e then
            Except.error "Expiration date exceeds allowed internal limit"
          else Except.ok e) = _
        rw [if_neg hle]
      rw [heval] at hok
      cases hany : (db.any fun l => decide (l.linkUrl = params.linkUrl)) with
      | true => simp [hany] at hok
      | false =>
        simp only [hany, Bool.false_eq_true, if_false] at hok
        injection hok with h
        injection h with h1 h23
        rw [← h1]
    · intro hnone link db2 n2 hok
      unfold createLink at hok
      have heval : evaluateExpiration none params.shareType params.expiresAt now =
          Except.ok (addDays 365 now) := by
        rw [hs, hnone]
        rfl
      rw [heval] at hok
      cases hany : (db.any fun l => decide (l.linkUrl = params.linkUrl)) with
      | true => simp [hany] at hok
      | false =>
        simp only [hany, Bool.false_eq_true, if_false] at hok
        injection hok with h
        injection h with h1 h23
        rw [← h1]

/-- ANYONE creation request used against the missing policy. -/
def paramsC10 : CreateLinkParams :=
  { fileName := "p.txt", filePath := "/p", shareType := ShareType.ANYONE
    recipients := [], linkUrl := "up10", expiresAt := none, ownerId := "alice" }

/-- Witness for C10: with no Policy row the ANYONE request is rejected. -/
theorem createLink_missing_policy_witness :
    createLink (fun s => s) none 0 paramsC10 [] 0 =
      Except.error "Public sharing not allowed" :=
  (createLink_missing_policy (fun s => s) 0 paramsC10 [] 0).1 rfl

/-- Concrete store and request showing `updateLink` persisting a null
expiration: the owner clears the expiration with an explicit null. -/
def polC3 : Policy :=
  { maxDurationInternal := 365, maxDurationExternal := 30, allowPublicSharing := true }

def aliceC3 : User := { id := "alice", email := "alice@x.com", role := Role.USER }

def linkC3 : TrackedLink :=
  { id := 0, fileId := "f", fileName := "a.txt", filePath := "/a"
    shareType := ShareType.SPECIFIC_PEOPLE, linkUrl := "u3", ownerId := "alice"
    createdAt := 0, expiresAt := some 100, recipients := [] }

def paramsC3 : UpdateLinkParams :=
  { shareType := none, recipients := none, expiresAt := some none }

/-- C3 counterexample: `updateLink` with an explicit null `expiresAt` runs its
policy check (which skips null) and then persists `expiresAt = null`, so a
null expiration does persist past policy evaluation. -/
theorem updateLink_persists_null_expiresAt :
    updateLink (some polC3) 0 [linkC3] 0 paramsC3 aliceC3 =
      Except.ok (some (applyUpdate linkC3 paramsC3), [applyUpdate linkC3 paramsC3]) ∧
    (applyUpdate linkC3 paramsC3).expiresAt = none :=
  ⟨rfl, rfl⟩

/-- C3 (amended): `createLink` always persists a non-null `expiresAt` (the
Policy Evaluator substitutes a default when none is requested); `updateLink`
and `synchronizeLinks` can persist null (explicit null update; remote item
without an expiration). -/
theorem createLink_expiresAt_isSome (sha256 : String → String) (policy : Option Policy)
    (now : Timestamp) (params : CreateLinkParams) (db : List TrackedLink) (nextId : Nat)
    (link : TrackedLink) (db2 : List TrackedLink) (n2 : Nat)
    (hok : createLink sha256 policy now params db nextId = Except.ok (link, db2, n2)) :
    link.expiresAt.isSome = true := by
  unfold createLink at hok
  cases heval : evaluateExpiration policy params.shareType params.expiresAt now with
  | error e => rw [heval] at hok; exact absurd hok (by simp)
  | ok expires =>
    rw [heval] at hok
    cases hany : (db.any fun l => decide (l.linkUrl = params.linkUrl)) with
    | true => simp [hany] at hok
    | false =>
      simp only [hany, Bool.false_eq_true, if_false] at hok
      injection hok with h
      injection h with h1 h23
      rw [← h1]
      rfl

def paramsC3w : CreateLinkParams :=
  { fileName := "w", filePath := "/w", shareType := ShareType.SPECIFIC_PEOPLE
    recipients := [], linkUrl := "uw", expiresAt := none, ownerId := "alice" }

def linkC3w : TrackedLink :=
  { id := 0, fileId := "/w", fileName := "w", filePath := "/w"
    shareType := ShareType.SPECIFIC_PEOPLE, linkUrl := "uw", ownerId := "alice"
    createdAt := 0, expiresAt := some (addDays 365 0), recipients := [] }

/-- Witness for the amended C3 at a concrete creation. -/
theorem createLink_expiresAt_isSome_witness :
    linkC3w.expiresAt.isSome = true :=
  createLink_expiresAt_isSome (fun s => s) none 0 paramsC3w [] 0 linkC3w [linkC3w] 1 rfl

/-- Failing input for C2: a PUBLIC (ANYONE) link, policy max 30 external days,
update request extending the expiration by 100 days without touching the
share type. -/
def polC2 : Policy :=
  { maxDurationInternal := 365, maxDurationExternal := 30, allowPublicSharing := true }

def aliceC2 : User := { id := "alice", email := "alice@x.com", role := Role.USER }

def nowC2 : Timestamp := 1704067200000

def linkC2pub : TrackedLink :=
  { id := 0, fileId := "fp", fileName := "p.txt", filePath := "/p"
    shareType := ShareType.ANYONE, linkUrl := "up", ownerId := "alice"
    createdAt := 0, expiresAt := some (addDays 20 nowC2), recipients := [] }

def paramsC2 : UpdateLinkParams :=
  { shareType := none, recipients := none
    expiresAt := some (some (addDays 100 nowC2)) }

/-- C2 (code evaluated at the failing input): because `updateLink` selects the
maximum by `params.shareType` (undefined here) rather than the stored link's
share type, it accepts a 100-day expiration on a PUBLIC link whose policy
maximum is 30 days, and the link stays PUBLIC. -/
theorem updateLink_public_link_uses_internal_max :
    linkC2pub.shareType = ShareType.ANYONE ∧
    polC2.maxDurationExternal = 30 ∧
    updateLink (some polC2) nowC2 [linkC2pub] 0 paramsC2 aliceC2 =
      Except.ok (some (applyUpdate linkC2pub paramsC2), [applyUpdate linkC2pub paramsC2]) ∧
    (applyUpdate linkC2pub paramsC2).shareType = ShareType.ANYONE ∧
    (applyUpdate linkC2pub paramsC2).expiresAt = some (addDays 100 nowC2) ∧
    addDays polC2.maxDurationExternal nowC2 < addDays 100 nowC2 :=
  ⟨rfl, rfl, rfl, rfl, rfl, by decide⟩

/-- Concrete store for C4: a link owned by alice, probed by non-admin bob. -/
def linkC4 : TrackedLink :=
  { id := 0, fileId := "f4", fileName := "d.txt", filePath := "/d"
    shareType := ShareType.SPECIFIC_PEOPLE, linkUrl := "u4", ownerId := "alice"
    createdAt := 0, expiresAt := some 100, recipients := [] }

def bobC4 : User := { id := "bob", email := "bob@x.com", role := Role.USER }

def paramsC4 : UpdateLinkParams :=
  { shareType := some ShareType.ANYONE, recipients := none, expiresAt := none }

/-- Empty update request (passes the policy pre-check trivially). -/
def paramsC4b : UpdateLinkParams :=
  { shareType := none, recipients := none, expiresAt := none }

/-- C4 counterexample: an unauthorized caller sending policy-violating
parameters (ANYONE while public sharing is disallowed) receives a policy
error, not the "null" outcome the claim requires for every unauthorized
mutation; the policy pre-check runs before the authorization lookup. -/
theorem updateLink_policy_error_before_auth :
    bobC4.role ≠ Role.ADMIN ∧ linkC4.ownerId ≠ bobC4.id ∧
    updateLink none 0 [linkC4] 0 paramsC4 bobC4 =
      Except.error "Public sharing not allowed" ∧
    updateLink none 0 [linkC4] 0 paramsC4 bobC4 ≠ Except.ok (none, [linkC4]) := by
  refine ⟨by decide, by decide, rfl, ?_⟩
  intro hcon
  have he : updateLink none 0 [linkC4] 0 paramsC4 bobC4 =
      Except.error "Public sharing not allowed" := rfl
  rw [he] at hcon
  exact Except.noConfusion hcon

/-- `findUnique` by a stored record's id returns that record. -/
theorem find_id_of_nodup {db : List TrackedLink} {l : TrackedLink}
    (hid : (db.map TrackedLink.id).Nodup) (hl : l ∈ db) :
    db.find? (fun x => decide (x.id = l.id)) = some l := by
  cases hf : db.find? (fun x => decide (x.id = l.id)) with
  | none => exact absurd (decide_eq_true rfl) (List.find?_eq_none.mp hf l hl)
  | some x =>
    have hx := List.mem_of_find?_eq_some hf
    have hxid : x.id = l.id := by
      have hp := List.find?_some hf
      simpa using hp
    rw [List.inj_on_of_nodup_map hid hx hl hxid]

/-- C4 (amended): for every existing link, `getLinkById` returns the link iff
the caller is admin or owner and reports `null` otherwise (never a distinct
"forbidden"); `deleteLink` applies the identical rule returning `false` and
leaving the store unchanged; `updateLink` does the same returning `null` —
provided its policy pre-check passes, since that pre-check runs before the
authorization lookup and rejects policy-violating parameters for any caller. -/
theorem rbac_access_rule (db : List TrackedLink) (user : User) (l : TrackedLink)
    (hid : (db.map TrackedLink.id).Nodup) (hl : l ∈ db) :
    ((user.role = Role.ADMIN ∨ l.ownerId = user.id) → getLinkById db l.id user = some l) ∧
    (user.role ≠ Role.ADMIN → l.ownerId ≠ user.id → getLinkById db l.id user = none) ∧
    (user.role ≠ Role.ADMIN → l.ownerId ≠ user.id → deleteLink db l.id user = (false, db)) ∧
    (∀ policy now params, updatePolicyCheck policy now params = Except.ok () →
      user.role ≠ Role.ADMIN → l.ownerId ≠ user.id →
      updateLink policy now db l.id params user = Except.ok (none, db)) := by
  have hred : getLinkById db l.id user =
      if user.role ≠ Role.ADMIN ∧ l.ownerId ≠ user.id then none else some l := by
    unfold getLinkById
    rw [find_id_of_nodup hid hl]
  have h2 : user.role ≠ Role.ADMIN → l.ownerId ≠ user.id →
      getLinkById db l.id user = none := by
    intro hr ho
    rw [hred, if_pos ⟨hr, ho⟩]
  refine ⟨?_, h2, ?_, ?_⟩
  · intro hor
    have hcond : ¬ (user.role ≠ Role.ADMIN ∧ l.ownerId ≠ user.id) := by
      rcases hor with h | h
      · exact fun hc => hc.1 h
      · exact fun hc => hc.2 h
    rw [hred, if_neg hcond]
  · intro hr ho
    unfold deleteLink
    rw [h2 hr ho]
  · intro policy now params hpc hr ho
    unfold updateLink
    rw [hpc, h2 hr ho]

/-- Witness for the amended C4: non-admin non-owner bob gets "not found" from
the read, a no-op `false` from delete, and a no-op `null` from a policy-clean
update. -/
theorem rbac_access_rule_witness :
    getLinkById [linkC4] linkC4.id bobC4 = none ∧
    deleteLink [linkC4] linkC4.id bobC4 = (false, [linkC4]) ∧
    updateLink none 0 [linkC4] linkC4.id paramsC4b bobC4 = Except.ok (none, [linkC4]) :=
  ⟨(rbac_access_rule [linkC4] bobC4 linkC4 (by decide) (by decide)).2.1
      (by decide) (by decide),
   (rbac_access_rule [linkC4] bobC4 linkC4 (by decide) (by decide)).2.2.1
      (by decide) (by decide),
   (rbac_access_rule [linkC4] bobC4 linkC4 (by decide) (by decide)).2.2.2
      none 0 paramsC4b rfl (by decide) (by decide)⟩

/-- A link expiring exactly at the inclusive window boundary `now + 7` days. -/
def linkC8 : TrackedLink :=
  { id := 0, fileId := "f8", fileName := "e.txt", filePath := "/e"
    shareType := ShareType.SPECIFIC_PEOPLE, linkUrl := "u8", ownerId := "alice"
    createdAt := 0, expiresAt := some (addDays 7 0), recipients := [] }

/-- Witness for C8: the inclusive upper bound — a link with
`expiresAt = now + daysThreshold` days is selected. -/
theorem findExpiringLinks_mem_witness :
    linkC8 ∈ findExpiringLinks [linkC8] 0 7 :=
  (findExpiringLinks_mem [linkC8] 0 7 linkC8).mpr
    ⟨List.mem_singleton_self linkC8, addDays 7 0, rfl, by decide, le_refl _⟩

end LinkCullen
